import Mathlib

/-!
# Verification of the cache-fs inode tree and dispatcher

A shallow embedding of the `cache-fs` read-only caching filesystem
(`src/main.rs`): the persisted `FileTree`, its construction by a
breadth-first scan (`build` / `process_dir`), its serialization
(`save` / `load`), and the dispatcher operations `open`, `read`,
`release` and `readdir` of `CacheFs`, together with proofs of the
specified properties.

Modelling conventions: byte strings (`OsString` contents, file
contents, serialized streams) are `List Nat`; paths are lists of
path components; `u64`/`usize` values are `Nat` with explicit
`% 2 ^ w` where a narrowing cast occurs in the source; `i64`/`i32`
values that can be negative are `Int`.  `HashMap` is modelled as an
association list whose `insert` replaces the binding of an existing
key in place, which matches `HashMap` lookup/insert behaviour; the
map's iteration order is the list order.  Fallible filesystem calls
made by the dispatcher are driven by a `World` record of outcomes,
and the filesystem side effects it performs are recorded as a list
of `Action`s.
-/

namespace Cachefs

/-- Byte-string contents of an `OsString` (a file name or symlink target). -/
abbrev Name := List Nat

/-- A `PathBuf`, as the list of its components relative to some root. -/
abbrev Path := List Name

/-- Errno value of `EPERM` on Linux. -/
def eperm : Nat := 1

/-- Errno value of `ENOENT` on Linux. -/
def enoent : Nat := 2

/-- Errno value of `EIO` on Linux. -/
def eio : Nat := 5

/-- Errno value of `EINVAL` on Linux. -/
def einval : Nat := 22

/-- Flag constant `O_RDONLY` (Linux). -/
def O_RDONLY : Nat := 0

/-- Flag constant `O_WRONLY` (Linux). -/
def O_WRONLY : Nat := 1

/-- Flag constant `O_RDWR` (Linux). -/
def O_RDWR : Nat := 2

/-- Flag constant `O_ACCMODE` (Linux). -/
def O_ACCMODE : Nat := 3

/-- Flag constant `O_CREAT` (Linux, octal 100). -/
def O_CREAT : Nat := 64

/-- Flag constant `O_EXCL` (Linux, octal 200). -/
def O_EXCL : Nat := 128

/-- Flag constant `O_TRUNC` (Linux, octal 1000). -/
def O_TRUNC : Nat := 512

/-- Flag constant `O_APPEND` (Linux, octal 2000). -/
def O_APPEND : Nat := 1024

/-- The seven variants of `fuser::FileType`, in the declaration order of
`FileTypeDef` in the source (that order fixes the serialization tags). -/
inductive FKind where
  | namedPipe
  | charDevice
  | blockDevice
  | directory
  | regularFile
  | symlink
  | socket
deriving DecidableEq, Repr

/-- The `FileAttr` record (`FileAttrDef` in the source).  Timestamps are
instants encoded as `Nat` (0 is the Unix epoch). -/
structure FileAttr where
  ino : Nat
  size : Nat
  blocks : Nat
  atime : Nat
  mtime : Nat
  ctime : Nat
  crtime : Nat
  kind : FKind
  perm : Nat
  nlink : Nat
  uid : Nat
  gid : Nat
  rdev : Nat
  flags : Nat
  blksize : Nat
deriving DecidableEq, Repr

/-- The `TypeExtra` tagged union: kind-specific payload of a `FileInfo`.
A directory's children map is an association list from child name to
child inode, in iteration order. -/
inductive TypeExtra where
  | regularFile
  | symlink (target : Name)
  | directory (children : List (Name × Nat))
deriving DecidableEq, Repr

/-- The per-inode record `FileInfo`: parent inode, path relative to the
remote root, attributes, and kind-specific payload. -/
structure FileInfo where
  parent : Nat
  path : Path
  attr : FileAttr
  type_extra : TypeExtra
deriving DecidableEq, Repr

/-- The `FileTree`: the inode namespace, a map from inode number to
`FileInfo` (the source's `inode_to_path` HashMap). -/
structure FileTree where
  inode_to_path : List (Nat × FileInfo)
deriving DecidableEq, Repr

/-- Lookup in an association list modelling a `HashMap`: the first
binding of the key (insertion keeps keys unique). -/
def alookup {α : Type} : List (Nat × α) → Nat → Option α
  | [], _ => none
  | (k, v) :: t, i => if i = k then some v else alookup t i

/-- Insert modelling `HashMap::insert`: replace the binding of an
existing key in place, otherwise append. -/
def aupsert {α : Type} (k : Nat) (v : α) : List (Nat × α) → List (Nat × α)
  | [] => [(k, v)]
  | (k', v') :: t => if k' = k then (k, v) :: t else (k', v') :: aupsert k v t

/-- Remove modelling `HashMap::remove`: drop the first binding of the key. -/
def aerase {α : Type} (k : Nat) : List (Nat × α) → List (Nat × α)
  | [] => []
  | (k', v') :: t => if k' = k then t else (k', v') :: aerase k t

/-- Insert into a directory's children map (`HashMap<OsString, u64>`):
replace an existing name's binding in place, otherwise append. -/
def cupsert (n : Name) (i : Nat) : List (Name × Nat) → List (Name × Nat)
  | [] => [(n, i)]
  | (n', i') :: t => if n' = n then (n, i) :: t else (n', i') :: cupsert n i t

theorem alookup_aupsert_self {α : Type} (k : Nat) (v : α) (l : List (Nat × α)) :
    alookup (aupsert k v l) k = some v := by
  induction l with
  | nil => simp [aupsert, alookup]
  | cons h t ih =>
    obtain ⟨k', v'⟩ := h
    by_cases hk : k' = k
    · simp [aupsert, hk, alookup]
    · simp [aupsert, hk, alookup, Ne.symm hk, ih]

theorem alookup_aupsert_ne {α : Type} (k i : Nat) (v : α) (l : List (Nat × α))
    (h : i ≠ k) : alookup (aupsert k v l) i = alookup l i := by
  induction l with
  | nil => simp [aupsert, alookup, h]
  | cons hd t ih =>
    obtain ⟨k', v'⟩ := hd
    by_cases hk : k' = k
    · subst hk
      simp [aupsert, alookup, h, ih]
    · simp only [aupsert, if_neg hk]
      by_cases hi : i = k'
      · simp [alookup, hi]
      · simp [alookup, hi, ih]

theorem alookup_aerase_ne {α : Type} (k i : Nat) (l : List (Nat × α))
    (h : i ≠ k) : alookup (aerase k l) i = alookup l i := by
  induction l with
  | nil => simp [aerase]
  | cons hd t ih =>
    obtain ⟨k', v'⟩ := hd
    by_cases hk : k' = k
    · subst hk
      simp [aerase, alookup, h]
    · simp only [aerase, if_neg hk]
      by_cases hi : i = k'
      · simp [alookup, hi]
      · simp [alookup, hi, ih]

/-- Keys of an association list are pairwise distinct (the `HashMap`
representation invariant). -/
abbrev keysNodup {α : Type} (l : List (Nat × α)) : Prop :=
  (l.map Prod.fst).Nodup

theorem alookup_eq_none_of_not_mem {α : Type} (k : Nat) (l : List (Nat × α))
    (h : k ∉ l.map Prod.fst) : alookup l k = none := by
  induction l with
  | nil => simp [alookup]
  | cons hd t ih =>
    obtain ⟨k', v'⟩ := hd
    simp only [List.map_cons, List.mem_cons] at h
    push_neg at h
    simp [alookup, h.1, ih h.2]

theorem keysNodup_tail {α : Type} (p : Nat × α) (t : List (Nat × α))
    (h : keysNodup (p :: t)) : keysNodup t := by
  simp only [keysNodup, List.map_cons, List.nodup_cons] at h
  exact h.2

theorem alookup_aerase_self {α : Type} (k : Nat) (l : List (Nat × α))
    (h : keysNodup l) : alookup (aerase k l) k = none := by
  induction l with
  | nil => simp [aerase, alookup]
  | cons hd t ih =>
    obtain ⟨k', v'⟩ := hd
    by_cases hk : k' = k
    · subst hk
      simp only [aerase, if_pos rfl]
      apply alookup_eq_none_of_not_mem
      simp only [keysNodup, List.map_cons, List.nodup_cons] at h
      exact h.1
    · simp only [aerase, if_neg hk]
      simp [alookup, Ne.symm hk, ih (keysNodup_tail _ _ h)]

theorem keys_aerase_subset {α : Type} (k : Nat) (l : List (Nat × α)) :
    ((aerase k l).map Prod.fst) ⊆ l.map Prod.fst := by
  induction l with
  | nil => simp [aerase]
  | cons hd t ih =>
    obtain ⟨k', v'⟩ := hd
    intro x hx
    by_cases hk : k' = k
    · simp only [aerase, if_pos hk] at hx
      simp [hx]
    · simp only [aerase, if_neg hk, List.map_cons, List.mem_cons] at hx ⊢
      rcases hx with hx | hx
      · exact Or.inl hx
      · exact Or.inr (ih hx)

theorem keysNodup_aerase {α : Type} (k : Nat) (l : List (Nat × α))
    (h : keysNodup l) : keysNodup (aerase k l) := by
  induction l with
  | nil => simpa [aerase] using h
  | cons hd t ih =>
    obtain ⟨k', v'⟩ := hd
    by_cases hk : k' = k
    · simp only [aerase, if_pos hk]
      exact keysNodup_tail _ _ h
    · simp only [aerase, if_neg hk]
      simp only [keysNodup, List.map_cons, List.nodup_cons]
      have h' := h
      simp only [keysNodup, List.map_cons, List.nodup_cons] at h'
      exact ⟨fun hmem => h'.1 (keys_aerase_subset k t hmem),
        ih (keysNodup_tail _ _ h)⟩

theorem mem_keys_aupsert {α : Type} (x k : Nat) (v : α) (l : List (Nat × α))
    (h : x ∈ (aupsert k v l).map Prod.fst) : x = k ∨ x ∈ l.map Prod.fst := by
  induction l with
  | nil =>
    simp only [aupsert, List.map_cons, List.map_nil, List.mem_singleton] at h
    exact Or.inl h
  | cons hd t ih =>
    obtain ⟨k', v'⟩ := hd
    by_cases hk : k' = k
    · simp only [aupsert, if_pos hk, List.map_cons, List.mem_cons] at h ⊢
      rcases h with h | h
      · exact Or.inl h
      · exact Or.inr (Or.inr h)
    · simp only [aupsert, if_neg hk, List.map_cons, List.mem_cons] at h ⊢
      rcases h with h | h
      · exact Or.inr (Or.inl h)
      · rcases ih h with h2 | h2
        · exact Or.inl h2
        · exact Or.inr (Or.inr h2)

theorem keysNodup_aupsert {α : Type} (k : Nat) (v : α) (l : List (Nat × α))
    (h : keysNodup l) : keysNodup (aupsert k v l) := by
  induction l with
  | nil => simp [aupsert, keysNodup]
  | cons hd t ih =>
    obtain ⟨k', v'⟩ := hd
    simp only [keysNodup, List.map_cons, List.nodup_cons] at h
    by_cases hk : k' = k
    · subst hk
      rw [show aupsert k' v ((k', v') :: t) = (k', v) :: t from by simp [aupsert]]
      simp only [keysNodup, List.map_cons, List.nodup_cons]
      exact h
    · simp only [aupsert, if_neg hk]
      simp only [keysNodup, List.map_cons, List.nodup_cons]
      refine ⟨?_, ih h.2⟩
      intro hmem
      rcases mem_keys_aupsert _ _ _ _ hmem with hm | hm
      · exact hk hm
      · exact h.1 hm

/-- Query `FileTree::file`: unconditional fetch of a `FileInfo` by inode. -/
def FileTree.file (t : FileTree) (ino : Nat) : Option FileInfo :=
  alookup t.inode_to_path ino

/-- Query `FileTree::getattr`: the attributes of an inode. -/
def FileTree.getattr (t : FileTree) (ino : Nat) : Option FileAttr :=
  (alookup t.inode_to_path ino).map (fun fi => fi.attr)

/-- Query `FileTree::folder`: present only when the inode is a directory;
returns the `FileInfo` together with its children map. -/
def FileTree.folder (t : FileTree) (ino : Nat) :
    Option (FileInfo × List (Name × Nat)) :=
  match alookup t.inode_to_path ino with
  | none => none
  | some fi =>
    match fi.type_extra with
    | .directory cs => some (fi, cs)
    | _ => none

/-- Query `FileTree::symlink`: present only when the inode is a symlink. -/
def FileTree.symlink (t : FileTree) (ino : Nat) : Option (FileInfo × Name) :=
  match alookup t.inode_to_path ino with
  | none => none
  | some fi =>
    match fi.type_extra with
    | .symlink target => some (fi, target)
    | _ => none

/-- Query `FileTree::lookup`: name lookup within a directory. -/
def FileTree.treeLookup (t : FileTree) (parent : Nat) (child : Name) :
    Option FileAttr :=
  match t.folder parent with
  | none => none
  | some (_, children) =>
    match children.lookup child with
    | none => none
    | some c => (t.file c).map (fun fi => fi.attr)

/-! ## Serialization

Modelled from the spec: `bincode` (the "deterministic binary structural
encoder" of §4.2, an external crate not part of this repository) is
modelled as a token-stream structural encoder: enum variants are
encoded by their declaration-order tag, structs field by field in
declaration order, and sequences with a length prefix.  The `zstd`
streaming compressor (also external) is kept abstract: `save` and
`load` are parameterized by the compression and decompression
functions, constrained only by the spec's losslessness contract. -/

/-- Encode a machine word. -/
def encNat (n : Nat) : List Nat := [n]

/-- Encode a sequence with a length prefix, as `bincode` does. -/
def encList {α : Type} (f : α → List Nat) (l : List α) : List Nat :=
  l.length :: (l.map f).flatten

/-- Encode an `OsString` (a byte string with length prefix). -/
def encName (n : Name) : List Nat := encList encNat n

/-- Declaration-order tag of a `FileType` variant (`FileTypeDef`). -/
def encKindTag : FKind → Nat
  | .namedPipe => 0
  | .charDevice => 1
  | .blockDevice => 2
  | .directory => 3
  | .regularFile => 4
  | .symlink => 5
  | .socket => 6

/-- Encode a `FileType` variant. -/
def encKind (k : FKind) : List Nat := [encKindTag k]

/-- Encode a `FileAttr`, field by field in declaration order. -/
def encAttr (a : FileAttr) : List Nat :=
  encNat a.ino ++ encNat a.size ++ encNat a.blocks ++ encNat a.atime ++
    encNat a.mtime ++ encNat a.ctime ++ encNat a.crtime ++ encKind a.kind ++
    encNat a.perm ++ encNat a.nlink ++ encNat a.uid ++ encNat a.gid ++
    encNat a.rdev ++ encNat a.flags ++ encNat a.blksize

/-- Encode one children-map binding (name, child inode). -/
def encChild (p : Name × Nat) : List Nat := encName p.1 ++ encNat p.2

/-- Encode a `TypeExtra` value: declaration-order variant tag, then payload. -/
def encExtra : TypeExtra → List Nat
  | .regularFile => [0]
  | .symlink target => 1 :: encName target
  | .directory cs => 2 :: encList encChild cs

/-- Encode a `FileInfo`, field by field in declaration order. -/
def encInfo (fi : FileInfo) : List Nat :=
  encNat fi.parent ++ encList encName fi.path ++ encAttr fi.attr ++
    encExtra fi.type_extra

/-- Encode one `inode_to_path` binding (inode, `FileInfo`). -/
def encEntry (p : Nat × FileInfo) : List Nat := encNat p.1 ++ encInfo p.2

/-- Serialize a `FileTree` (the structural encoder underlying `save`). -/
def serialize (t : FileTree) : List Nat := encList encEntry t.inode_to_path

/-- Sequence two stream parsers (`Option` state-passing bind). -/
def pbind {α β : Type} (p : Option (α × List Nat))
    (f : α → List Nat → Option (β × List Nat)) : Option (β × List Nat) :=
  match p with
  | none => none
  | some (a, s) => f a s

/-- Parse a machine word. -/
def decNat : List Nat → Option (Nat × List Nat)
  | [] => none
  | n :: s => some (n, s)

/-- Parse exactly `n` elements with the given element parser. -/
def decListN {α : Type} (dec : List Nat → Option (α × List Nat)) :
    Nat → List Nat → Option (List α × List Nat)
  | 0, s => some ([], s)
  | n + 1, s =>
    pbind (dec s) fun x s =>
      pbind (decListN dec n s) fun xs s => some (x :: xs, s)

/-- Parse a length-prefixed sequence. -/
def decList {α : Type} (dec : List Nat → Option (α × List Nat))
    (s : List Nat) : Option (List α × List Nat) :=
  pbind (decNat s) fun n s => decListN dec n s

/-- Parse an `OsString`. -/
def decName (s : List Nat) : Option (Name × List Nat) := decList decNat s

/-- Parse a `FileType` variant from its tag. -/
def decKind (s : List Nat) : Option (FKind × List Nat) :=
  pbind (decNat s) fun tag s =>
    match tag with
    | 0 => some (.namedPipe, s)
    | 1 => some (.charDevice, s)
    | 2 => some (.blockDevice, s)
    | 3 => some (.directory, s)
    | 4 => some (.regularFile, s)
    | 5 => some (.symlink, s)
    | 6 => some (.socket, s)
    | _ => none

/-- Parse a `FileAttr`. -/
def decAttr (s : List Nat) : Option (FileAttr × List Nat) :=
  pbind (decNat s) fun ino s =>
  pbind (decNat s) fun size s =>
  pbind (decNat s) fun blocks s =>
  pbind (decNat s) fun atime s =>
  pbind (decNat s) fun mtime s =>
  pbind (decNat s) fun ctime s =>
  pbind (decNat s) fun crtime s =>
  pbind (decKind s) fun kind s =>
  pbind (decNat s) fun perm s =>
  pbind (decNat s) fun nlink s =>
  pbind (decNat s) fun uid s =>
  pbind (decNat s) fun gid s =>
  pbind (decNat s) fun rdev s =>
  pbind (decNat s) fun flags s =>
  pbind (decNat s) fun blksize s =>
    some (⟨ino, size, blocks, atime, mtime, ctime, crtime, kind, perm,
      nlink, uid, gid, rdev, flags, blksize⟩, s)

/-- Parse one children-map binding. -/
def decChild (s : List Nat) : Option ((Name × Nat) × List Nat) :=
  pbind (decName s) fun n s =>
  pbind (decNat s) fun i s => some ((n, i), s)

/-- Parse a `TypeExtra` value. -/
def decExtra (s : List Nat) : Option (TypeExtra × List Nat) :=
  pbind (decNat s) fun tag s =>
    match tag with
    | 0 => some (.regularFile, s)
    | 1 => pbind (decName s) fun target s => some (.symlink target, s)
    | 2 => pbind (decList decChild s) fun cs s => some (.directory cs, s)
    | _ => none

/-- Parse a `FileInfo`. -/
def decInfo (s : List Nat) : Option (FileInfo × List Nat) :=
  pbind (decNat s) fun parent s =>
  pbind (decList decName s) fun path s =>
  pbind (decAttr s) fun attr s =>
  pbind (decExtra s) fun te s => some (⟨parent, path, attr, te⟩, s)

/-- Parse one `inode_to_path` binding. -/
def decEntry (s : List Nat) : Option ((Nat × FileInfo) × List Nat) :=
  pbind (decNat s) fun k s =>
  pbind (decInfo s) fun fi s => some ((k, fi), s)

/-- Deserialize a `FileTree` (the structural decoder underlying `load`);
as with `bincode::deserialize_from`, trailing stream content is ignored. -/
def deserialize (s : List Nat) : Option FileTree :=
  match decList decEntry s with
  | none => none
  | some (l, _) => some ⟨l⟩

/-- `FileTree::save`: serialize, then pass the stream through the
compressor (`zstd` encoder, abstract) and write it out. -/
def save (comp : List Nat → List Nat) (t : FileTree) : List Nat :=
  comp (serialize t)

/-- `FileTree::load`: read the stream, decompress (`zstd` decoder,
abstract), then deserialize. -/
def load (decomp : List Nat → List Nat) (s : List Nat) : Option FileTree :=
  deserialize (decomp s)

theorem decNat_enc (n : Nat) (r : List Nat) : decNat (encNat n ++ r) = some (n, r) := rfl

theorem decListN_enc {α : Type} (enc : α → List Nat)
    (dec : List Nat → Option (α × List Nat))
    (h : ∀ x r, dec (enc x ++ r) = some (x, r)) :
    ∀ (l : List α) (r : List Nat),
      decListN dec l.length ((l.map enc).flatten ++ r) = some (l, r) := by
  intro l
  induction l with
  | nil => intro r; simp [decListN]
  | cons x xs ih =>
    intro r
    simp only [List.length_cons, List.map_cons, List.flatten_cons,
      List.append_assoc, decListN, h, pbind, ih]

theorem decList_enc {α : Type} (enc : α → List Nat)
    (dec : List Nat → Option (α × List Nat))
    (h : ∀ x r, dec (enc x ++ r) = some (x, r)) (l : List α) (r : List Nat) :
    decList dec (encList enc l ++ r) = some (l, r) := by
  simp only [encList, decList, List.cons_append, decNat, pbind,
    decListN_enc enc dec h]

theorem decName_enc (n : Name) (r : List Nat) :
    decName (encName n ++ r) = some (n, r) :=
  decList_enc encNat decNat decNat_enc n r

theorem decKind_enc (k : FKind) (r : List Nat) :
    decKind (encKind k ++ r) = some (k, r) := by
  cases k <;> rfl

theorem decAttr_enc (a : FileAttr) (r : List Nat) :
    decAttr (encAttr a ++ r) = some (a, r) := by
  simp only [encAttr, encNat, decAttr, List.cons_append, List.nil_append,
    List.append_assoc, decNat, pbind, decKind_enc]

theorem decChild_enc (p : Name × Nat) (r : List Nat) :
    decChild (encChild p ++ r) = some (p, r) := by
  simp only [encChild, decChild, List.append_assoc, decName_enc, pbind,
    encNat, List.cons_append, List.nil_append, decNat]

theorem decExtra_enc (te : TypeExtra) (r : List Nat) :
    decExtra (encExtra te ++ r) = some (te, r) := by
  cases te with
  | regularFile => rfl
  | symlink target =>
    simp only [encExtra, decExtra, List.cons_append, decNat, pbind,
      decName_enc]
  | directory cs =>
    simp only [encExtra, decExtra, List.cons_append, decNat, pbind,
      decList_enc encChild decChild decChild_enc]

theorem decInfo_enc (fi : FileInfo) (r : List Nat) :
    decInfo (encInfo fi ++ r) = some (fi, r) := by
  simp only [encInfo, decInfo, encNat, List.cons_append, List.nil_append,
    List.append_assoc, decNat, pbind, decList_enc encName decName decName_enc,
    decAttr_enc, decExtra_enc]

theorem decEntry_enc (p : Nat × FileInfo) (r : List Nat) :
    decEntry (encEntry p ++ r) = some (p, r) := by
  simp only [encEntry, decEntry, encNat, List.cons_append, List.nil_append,
    List.append_assoc, decNat, pbind, decInfo_enc]

/-- The structural codec round-trips: deserializing a serialized tree
recovers it exactly. -/
theorem deserialize_serialize (t : FileTree) : deserialize (serialize t) = some t := by
  have h := decList_enc encEntry decEntry decEntry_enc t.inode_to_path []
  rw [List.append_nil] at h
  simp only [serialize, deserialize, h]

/-! ## The remote tree and `FileTree::build`

The remote directory tree scanned by `build` is modelled as a value:
each entry carries the outcome of reading its metadata (`metaOk`),
its stat record, and its kind together with the kind's observable
payload — a directory's listing (`none` when `read_dir` fails) or a
symlink's target (`none` when `read_link` fails).  `other` covers the
native file types rejected by `ft2ft`. -/

/-- A stat record as consumed by `meta2attr`: sizes and ids are the
native unsigned values, `accessed`/`modified`/`created` may be
unavailable (`None` → Unix epoch), and `ctime` is the native signed
seconds-since-epoch value. -/
structure RMeta where
  size : Nat
  blocks : Nat
  atime : Option Nat
  mtime : Option Nat
  ctime : Int
  crtime : Option Nat
  mode : Nat
  nlink : Nat
  uid : Nat
  gid : Nat
  rdev : Nat
  blksize : Nat
deriving DecidableEq, Repr

/-- One entry of the remote tree. -/
inductive REntry where
  | file (metaOk : Bool) (meta : RMeta)
  | dir (metaOk : Bool) (meta : RMeta) (listing : Option (List (Name × REntry)))
  | symlink (metaOk : Bool) (meta : RMeta) (target : Option Name)
  | other (metaOk : Bool) (meta : RMeta)

/-- Whether the entry's metadata could be read (`DirEntry::metadata`). -/
def REntry.metaOk : REntry → Bool
  | .file ok _ => ok
  | .dir ok _ _ => ok
  | .symlink ok _ _ => ok
  | .other ok _ => ok

/-- The entry's stat record. -/
def REntry.meta : REntry → RMeta
  | .file _ m => m
  | .dir _ m _ => m
  | .symlink _ m _ => m
  | .other _ m => m

/-- The helper `ft2ft`: classify a native file type, testing symlink,
then directory, then regular file; anything else is a `NotFound`
error (modelled as `none`). -/
def ft2ft : REntry → Option FKind
  | .symlink _ _ _ => some .symlink
  | .dir _ _ _ => some .directory
  | .file _ _ => some .regularFile
  | .other _ _ => none

/-- The metadata codec `meta2attr` composed with the preceding
metadata read (`metadata().and_then(|m| meta2attr(&m, ino))`):
fails when the metadata could not be read or the kind is filtered
out.  Narrowing casts of the source (`mode as u16`, `nlink as u32`,
`rdev as u32`, `blksize as u32`) appear as `% 2 ^ w`; the `ctime`
conversion `try_into().unwrap_or(0)` clamps negatives to the epoch. -/
def meta2attr (e : REntry) (ino : Nat) : Option FileAttr :=
  if e.metaOk then
    (ft2ft e).map fun k =>
      { ino := ino
        size := e.meta.size
        blocks := e.meta.blocks
        atime := e.meta.atime.getD 0
        mtime := e.meta.mtime.getD 0
        ctime := e.meta.ctime.toNat
        crtime := e.meta.crtime.getD 0
        kind := k
        perm := e.meta.mode % 2 ^ 16
        nlink := e.meta.nlink % 2 ^ 32
        uid := e.meta.uid
        gid := e.meta.gid
        rdev := e.meta.rdev % 2 ^ 32
        flags := 0
        blksize := e.meta.blksize % 2 ^ 32 }
  else none

/-- First entry of a listing with the given file name (names in a real
directory listing are unique). -/
def lfind : List (Name × REntry) → Name → Option REntry
  | [], _ => none
  | (n, e) :: t, x => if n = x then some e else lfind t x

/-- Resolve `root_path.join(path)` against the remote tree and list the
resulting directory, as `std::fs::read_dir` does; `none` models a
failed `read_dir`. -/
def navigate : REntry → Path → Option (List (Name × REntry))
  | .dir _ _ (some l), [] => some l
  | .dir _ _ (some l), n :: rest =>
    match lfind l n with
    | none => none
    | some e => navigate e rest
  | _, _ => none

/-- The mutable state of `build`: the tree under construction and the
inode counter. -/
structure BuildSt where
  tree : FileTree
  counter : Nat
deriving DecidableEq, Repr

/-- Insert a child edge into the children map of directory `dirIno`
(source lines: `if let Some(TypeExtra::Directory(children)) = … {
children.insert(…) } else { unreachable!() }`).  The `unreachable!`
branches (inode missing or not a directory) are modelled as leaving
the tree unchanged; under the build invariant they cannot occur. -/
def addChildEdge (t : FileTree) (dirIno : Nat) (n : Name) (cino : Nat) :
    FileTree :=
  match alookup t.inode_to_path dirIno with
  | none => t
  | some fi =>
    match fi.type_extra with
    | .directory cs =>
      ⟨aupsert dirIno { fi with type_extra := .directory (cupsert n cino cs) }
        t.inode_to_path⟩
    | _ => t

/-- Process one directory entry inside `process_dir`'s loop: read its
metadata, skip filtered kinds and unreadable symlinks, otherwise
assign the next inode, add the child edge and the child's `FileInfo`,
collecting discovered sub-directories for the next frontier. -/
def processEntry (dirIno : Nat) (dirPath : Path)
    (acc : BuildSt × List Nat) (ne : Name × REntry) : BuildSt × List Nat :=
  match meta2attr ne.2 acc.1.counter with
  | none => acc
  | some attr =>
    let path := dirPath ++ [ne.1]
    let dext : Option (TypeExtra × Bool) :=
      match attr.kind with
      | .regularFile => some (.regularFile, false)
      | .directory => some (.directory [], true)
      | .symlink =>
        match ne.2 with
        | .symlink _ _ (some target) => some (.symlink target, false)
        | _ => none
      | _ => none
    match dext with
    | none => acc
    | some (te, isDir) =>
      let child : FileInfo := ⟨dirIno, path, attr, te⟩
      let tree1 := addChildEdge acc.1.tree dirIno ne.1 attr.ino
      let tree2 : FileTree := ⟨aupsert attr.ino child tree1.inode_to_path⟩
      (⟨tree2, acc.1.counter + 1⟩, if isDir then acc.2 ++ [attr.ino] else acc.2)

/-- `FileTree::process_dir`: look the directory up, list it on the
remote (skipping it entirely when `read_dir` fails), and fold the
entry processor over the listing.  The source's `expect`/`panic!`
on a missing or non-directory inode is modelled as a no-op; under
the build invariant it cannot occur. -/
def process_dir (R : REntry) (acc : BuildSt × List Nat) (ino : Nat) :
    BuildSt × List Nat :=
  match alookup acc.1.tree.inode_to_path ino with
  | none => acc
  | some dir =>
    match dir.type_extra with
    | .directory _ =>
      match navigate R dir.path with
      | none => acc
      | some entries => entries.foldl (processEntry ino dir.path) acc
    | _ => acc

/-- The breadth-first frontier loop of `build` (`while !dirs.is_empty()`):
process every directory of the current frontier, then recurse on the
collected next frontier.  The fuel argument only bounds the number of
levels; `build` passes a bound that the scan of a finite remote tree
never exhausts (each level's directories sit strictly deeper). -/
def buildLoop (R : REntry) : Nat → BuildSt → List Nat → BuildSt
  | 0, st, _ => st
  | _ + 1, st, [] => st
  | fuel + 1, st, dirs =>
    let r := dirs.foldl (process_dir R) (st, [])
    buildLoop R fuel r.1 r.2

mutual

/-- Number of entries of a remote tree (an upper bound on the depth,
used as the frontier-loop fuel). -/
def rsize : REntry → Nat
  | .dir _ _ (some l) => 1 + rsizeL l
  | _ => 1

/-- Total size of the entries of a listing. -/
def rsizeL : List (Name × REntry) → Nat
  | [] => 0
  | (_, e) :: t => rsize e + rsizeL t

end

/-- `FileTree::build`: install the root as inode 1 (parent 0, empty
path, empty directory children; its attributes from the root's
metadata, whose unreadability is fatal — modelled as `none`), then
run the frontier loop seeded with `{1}` and counter 2. -/
def build (R : REntry) : Option FileTree :=
  match meta2attr R 1 with
  | none => none
  | some attr =>
    let root : FileInfo := ⟨0, [], attr, .directory []⟩
    let st : BuildSt := ⟨⟨aupsert 1 root []⟩, 2⟩
    some (buildLoop R (rsize R) st [1]).tree

/-- The zero stat record (all sizes and ids 0, no timestamps). -/
def zeroMeta : RMeta := ⟨0, 0, none, none, 0, none, 0, 0, 0, 0, 0, 0⟩

/-- A remote tree consisting only of a readable, listable, empty root
directory. -/
def emptyRoot : REntry := .dir true zeroMeta (some [])

/-- The attributes `build` derives for the root of `emptyRoot`. -/
def rootAttr0 : FileAttr :=
  ⟨1, 0, 0, 0, 0, 0, 0, .directory, 0, 0, 0, 0, 0, 0, 0⟩

/-- The tree `build` produces from `emptyRoot`. -/
def tree0 : FileTree := ⟨[(1, ⟨0, [], rootAttr0, .directory []⟩)]⟩

/-- C1: Snapshot round-trip.  For every remote tree `R`, loading the
snapshot produced by saving the tree built from `R` yields a `FileTree`
structurally equal to `build R`: `save` serializes then compresses,
`load` decompresses then deserializes, and they are mutually inverse
for any lossless compressor. -/
theorem c1_snapshot_roundtrip (comp decomp : List Nat → List Nat)
    (R : REntry) (t : FileTree) (hloss : ∀ b, decomp (comp b) = b)
    (hbuild : build R = some t) :
    load decomp (save comp t) = some t := by
  simp only [load, save, hloss, deserialize_serialize]

/-- Witness for C1 at the identity compressor and the empty remote root. -/
theorem c1_snapshot_roundtrip_witness :
    load id (save id tree0) = some tree0 :=
  c1_snapshot_roundtrip id id emptyRoot tree0 (fun _ => rfl) (by decide)

/-! ## Structural invariants of `build` (C2)

The invariant is maintained by every step of the scan: the root is
installed before the loop and never clobbered (all later inodes are
fresh, tracked by `keys_lt`), every inserted `FileInfo` carries the
inode it is keyed under, and every children-map edge is inserted in
the same step as the `FileInfo` it points to. -/

/-- Invariant of the `build` state. -/
structure TreeInv (st : BuildSt) : Prop where
  counter_ge : 2 ≤ st.counter
  keys_lt : ∀ i fi, alookup st.tree.inode_to_path i = some fi → i < st.counter
  root_ok : ∃ fi, alookup st.tree.inode_to_path 1 = some fi ∧
    fi.parent = 0 ∧ fi.path = [] ∧ ∃ cs, fi.type_extra = .directory cs
  ino_ok : ∀ i fi, alookup st.tree.inode_to_path i = some fi → fi.attr.ino = i
  edges_ok : ∀ d fi cs, alookup st.tree.inode_to_path d = some fi →
    fi.type_extra = .directory cs → ∀ p ∈ cs,
      ∃ cfi, alookup st.tree.inode_to_path p.2 = some cfi ∧ cfi.parent = d

/-- Introduction form of `TreeInv` with the state's components spelled
out, so that arithmetic goals mention `c` plainly. -/
theorem treeInv_mk (L : List (Nat × FileInfo)) (c : Nat)
    (h1 : 2 ≤ c)
    (h2 : ∀ i fi, alookup L i = some fi → i < c)
    (h3 : ∃ fi, alookup L 1 = some fi ∧ fi.parent = 0 ∧ fi.path = [] ∧
      ∃ cs, fi.type_extra = .directory cs)
    (h4 : ∀ i fi, alookup L i = some fi → fi.attr.ino = i)
    (h5 : ∀ d fi cs, alookup L d = some fi → fi.type_extra = .directory cs →
      ∀ p ∈ cs, ∃ cfi, alookup L p.2 = some cfi ∧ cfi.parent = d) :
    TreeInv ⟨⟨L⟩, c⟩ :=
  ⟨h1, h2, h3, h4, h5⟩

theorem cupsert_mem {p : Name × Nat} {n : Name} {i : Nat}
    {cs : List (Name × Nat)} (h : p ∈ cupsert n i cs) :
    p = (n, i) ∨ p ∈ cs := by
  induction cs with
  | nil => simpa [cupsert] using h
  | cons hd t ih =>
    obtain ⟨n', i'⟩ := hd
    by_cases hn : n' = n
    · simp only [cupsert, if_pos hn, List.mem_cons] at h
      rcases h with h | h
      · exact Or.inl h
      · exact Or.inr (List.mem_cons_of_mem _ h)
    · simp only [cupsert, if_neg hn, List.mem_cons] at h
      rcases h with h | h
      · exact Or.inr (by simp [h])
      · rcases ih h with h2 | h2
        · exact Or.inl h2
        · exact Or.inr (List.mem_cons_of_mem _ h2)

theorem meta2attr_ino (e : REntry) (ino : Nat) (a : FileAttr)
    (h : meta2attr e ino = some a) : a.ino = ino := by
  unfold meta2attr at h
  by_cases hok : e.metaOk
  · simp only [hok, if_pos] at h
    cases hf : ft2ft e with
    | none => simp [hf] at h
    | some k =>
      simp only [hf, Option.map_some] at h
      cases h
      rfl
  · simp [hok] at h

/-- Inserting a fresh, unreferenced `FileInfo` whose directory payload
(if any) is empty preserves the invariant. -/
theorem aupsert_fresh_inv (st : BuildSt) (child : FileInfo)
    (h : TreeInv st) (hino : child.attr.ino = st.counter)
    (hchildDir : ∀ cs, child.type_extra = .directory cs → cs = []) :
    TreeInv ⟨⟨aupsert st.counter child st.tree.inode_to_path⟩,
      st.counter + 1⟩ := by
  have hc2 := h.counter_ge
  refine treeInv_mk _ _ (by omega) ?_ ?_ ?_ ?_
  · intro i fi hl
    by_cases hi : i = st.counter
    · omega
    · rw [alookup_aupsert_ne _ _ _ _ hi] at hl
      have := h.keys_lt i fi hl
      omega
  · obtain ⟨fi, hl, hp, hpath, cs, hcs⟩ := h.root_ok
    refine ⟨fi, ?_, hp, hpath, cs, hcs⟩
    rw [alookup_aupsert_ne _ _ _ _ (by omega)]
    exact hl
  · intro i fi hl
    by_cases hi : i = st.counter
    · subst hi
      rw [alookup_aupsert_self] at hl
      cases hl
      exact hino
    · rw [alookup_aupsert_ne _ _ _ _ hi] at hl
      exact h.ino_ok i fi hl
  · intro d fi cs hl hte p hp
    by_cases hd : d = st.counter
    · subst hd
      rw [alookup_aupsert_self] at hl
      cases hl
      have := hchildDir cs hte
      subst this
      simp at hp
    · rw [alookup_aupsert_ne _ _ _ _ hd] at hl
      obtain ⟨cfi, hcl, hcp⟩ := h.edges_ok d fi cs hl hte p hp
      have hlt := h.keys_lt p.2 cfi hcl
      refine ⟨cfi, ?_, hcp⟩
      rw [alookup_aupsert_ne _ _ _ _ (by omega)]
      exact hcl

/-- Adding a child edge to an existing directory together with the
child's own `FileInfo` (keyed by the fresh counter inode, with the
directory as parent) preserves the invariant. -/
theorem aupsert_edge_inv (st : BuildSt) (dirIno : Nat) (n : Name)
    (child fi : FileInfo) (cs : List (Name × Nat)) (h : TreeInv st)
    (hdl : alookup st.tree.inode_to_path dirIno = some fi)
    (hte : fi.type_extra = .directory cs)
    (hino : child.attr.ino = st.counter) (hparent : child.parent = dirIno)
    (hchildDir : ∀ cs2, child.type_extra = .directory cs2 → cs2 = []) :
    TreeInv ⟨⟨aupsert st.counter child
      (aupsert dirIno { fi with type_extra := .directory (cupsert n st.counter cs) }
        st.tree.inode_to_path)⟩, st.counter + 1⟩ := by
  have hc2 := h.counter_ge
  have hdlt : dirIno < st.counter := h.keys_lt dirIno fi hdl
  set fi' : FileInfo :=
    { fi with type_extra := .directory (cupsert n st.counter cs) } with hfi'
  have hlook : ∀ i, alookup (aupsert st.counter child
      (aupsert dirIno fi' st.tree.inode_to_path)) i =
      if i = st.counter then some child
      else if i = dirIno then some fi'
      else alookup st.tree.inode_to_path i := by
    intro i
    by_cases hi : i = st.counter
    · subst hi
      simp [alookup_aupsert_self]
    · rw [alookup_aupsert_ne _ _ _ _ hi, if_neg hi]
      by_cases hid : i = dirIno
      · subst hid
        simp [alookup_aupsert_self]
      · rw [alookup_aupsert_ne _ _ _ _ hid, if_neg hid]
  refine treeInv_mk _ _ (by omega) ?_ ?_ ?_ ?_
  · intro i fi2 hl
    rw [hlook] at hl
    by_cases hi : i = st.counter
    · omega
    · rw [if_neg hi] at hl
      by_cases hid : i = dirIno
      · omega
      · rw [if_neg hid] at hl
        have := h.keys_lt i fi2 hl
        omega
  · obtain ⟨rfi, hrl, hrp, hrpath, rcs, hrcs⟩ := h.root_ok
    by_cases hd1 : dirIno = 1
    · subst hd1
      have hrfi : rfi = fi := by
        rw [hdl] at hrl
        cases hrl
        rfl
      subst hrfi
      refine ⟨fi', ?_, ?_, ?_, cupsert n st.counter cs, rfl⟩
      · rw [hlook, if_neg (by omega), if_pos rfl]
      · simpa [hfi'] using hrp
      · simpa [hfi'] using hrpath
    · refine ⟨rfi, ?_, hrp, hrpath, rcs, hrcs⟩
      rw [hlook, if_neg (by omega), if_neg (by omega)]
      exact hrl
  · intro i fi2 hl
    rw [hlook] at hl
    by_cases hi : i = st.counter
    · rw [if_pos hi] at hl
      cases hl
      omega
    · rw [if_neg hi] at hl
      by_cases hid : i = dirIno
      · rw [if_pos hid] at hl
        cases hl
        have : fi.attr.ino = dirIno := h.ino_ok dirIno fi hdl
        simpa [hfi', hid] using this
      · rw [if_neg hid] at hl
        exact h.ino_ok i fi2 hl
  · intro d fi2 cs2 hl hte2 p hp
    rw [hlook] at hl
    by_cases hd : d = st.counter
    · rw [if_pos hd] at hl
      cases hl
      have := hchildDir cs2 hte2
      subst this
      simp at hp
    · rw [if_neg hd] at hl
      by_cases hdd : d = dirIno
      · rw [if_pos hdd] at hl
        cases hl
        have hcs2 : cs2 = cupsert n st.counter cs := by
          simpa [hfi'] using hte2.symm
        subst hcs2
        rcases cupsert_mem hp with hpe | hpo
        · subst hpe
          refine ⟨child, ?_, by omega⟩
          rw [hlook, if_pos rfl]
        · obtain ⟨cfi, hcl, hcp⟩ := h.edges_ok dirIno fi cs hdl hte p hpo
          have hclt := h.keys_lt p.2 cfi hcl
          by_cases hpd : p.2 = dirIno
          · refine ⟨fi', ?_, ?_⟩
            · rw [hlook, if_neg (by omega), if_pos hpd]
            · have : cfi = fi := by
                rw [hpd, hdl] at hcl
                cases hcl
                rfl
              subst this
              simp only [hfi']
              omega
          · refine ⟨cfi, ?_, by omega⟩
            rw [hlook, if_neg (by omega), if_neg hpd]
            exact hcl
      · rw [if_neg hdd] at hl
        obtain ⟨cfi, hcl, hcp⟩ := h.edges_ok d fi2 cs2 hl hte2 p hp
        have hclt := h.keys_lt p.2 cfi hcl
        by_cases hpd : p.2 = dirIno
        · refine ⟨fi', ?_, ?_⟩
          · rw [hlook, if_neg (by omega), if_pos hpd]
          · have : cfi = fi := by
              rw [hpd, hdl] at hcl
              cases hcl
              rfl
            subst this
            simpa [hfi'] using hcp
        · refine ⟨cfi, ?_, hcp⟩
          rw [hlook, if_neg (by omega), if_neg hpd]
          exact hcl

theorem processEntry_inv (dirIno : Nat) (dirPath : Path)
    (acc : BuildSt × List Nat) (ne : Name × REntry) (h : TreeInv acc.1) :
    TreeInv (processEntry dirIno dirPath acc ne).1 := by
  obtain ⟨n1, e1⟩ := ne
  cases hm : meta2attr e1 acc.1.counter with
  | none => simpa only [processEntry, hm] using h
  | some attr =>
    have hino : attr.ino = acc.1.counter := meta2attr_ino _ _ _ hm
    have hcore : ∀ te : TypeExtra, (∀ cs, te = .directory cs → cs = []) →
        TreeInv (⟨⟨aupsert attr.ino ⟨dirIno, dirPath ++ [n1], attr, te⟩
          (addChildEdge acc.1.tree dirIno n1 attr.ino).inode_to_path⟩,
          acc.1.counter + 1⟩ : BuildSt) := by
      intro te hted
      rw [hino]
      cases hdl : alookup acc.1.tree.inode_to_path dirIno with
      | none =>
        rw [show addChildEdge acc.1.tree dirIno n1 acc.1.counter = acc.1.tree
          from by unfold addChildEdge; simp only [hdl]]
        exact aupsert_fresh_inv acc.1 ⟨dirIno, dirPath ++ [n1], attr, te⟩ h
          hino hted
      | some fi =>
        cases hte : fi.type_extra with
        | directory cs =>
          rw [show addChildEdge acc.1.tree dirIno n1 acc.1.counter =
              (⟨aupsert dirIno
                { fi with type_extra := .directory (cupsert n1 acc.1.counter cs) }
                acc.1.tree.inode_to_path⟩ : FileTree)
            from by unfold addChildEdge; simp only [hdl, hte]]
          exact aupsert_edge_inv acc.1 dirIno n1
            ⟨dirIno, dirPath ++ [n1], attr, te⟩ fi cs h hdl hte hino rfl hted
        | regularFile =>
          rw [show addChildEdge acc.1.tree dirIno n1 acc.1.counter = acc.1.tree
            from by unfold addChildEdge; simp only [hdl, hte]]
          exact aupsert_fresh_inv acc.1 ⟨dirIno, dirPath ++ [n1], attr, te⟩ h
            hino hted
        | symlink target =>
          rw [show addChildEdge acc.1.tree dirIno n1 acc.1.counter = acc.1.tree
            from by unfold addChildEdge; simp only [hdl, hte]]
          exact aupsert_fresh_inv acc.1 ⟨dirIno, dirPath ++ [n1], attr, te⟩ h
            hino hted
    cases hk : attr.kind with
    | regularFile =>
      simpa only [processEntry, hm, hk] using
        hcore .regularFile (by intro cs hcs; cases hcs)
    | directory =>
      simpa only [processEntry, hm, hk] using
        hcore (.directory []) (by intro cs hcs; cases hcs; rfl)
    | symlink =>
      cases e1 with
      | symlink ok m target =>
        cases target with
        | none => simpa only [processEntry, hm, hk] using h
        | some tgt =>
          simpa only [processEntry, hm, hk] using
            hcore (.symlink tgt) (by intro cs hcs; cases hcs)
      | file ok m => simpa only [processEntry, hm, hk] using h
      | dir ok m l => simpa only [processEntry, hm, hk] using h
      | other ok m => simpa only [processEntry, hm, hk] using h
    | namedPipe => simpa only [processEntry, hm, hk] using h
    | charDevice => simpa only [processEntry, hm, hk] using h
    | blockDevice => simpa only [processEntry, hm, hk] using h
    | socket => simpa only [processEntry, hm, hk] using h

theorem foldl_pres {σ χ : Type} (P : σ → Prop) (f : σ → χ → σ)
    (hf : ∀ s x, P s → P (f s x)) :
    ∀ (l : List χ) (s : σ), P s → P (List.foldl f s l) := by
  intro l
  induction l with
  | nil => intro s hs; exact hs
  | cons x xs ih => intro s hs; exact ih (f s x) (hf s x hs)

theorem process_dir_inv (R : REntry) (acc : BuildSt × List Nat) (ino : Nat)
    (h : TreeInv acc.1) : TreeInv (process_dir R acc ino).1 := by
  cases hdl : alookup acc.1.tree.inode_to_path ino with
  | none => simpa only [process_dir, hdl] using h
  | some dir =>
    cases hte : dir.type_extra with
    | directory cs =>
      cases hnav : navigate R dir.path with
      | none => simpa only [process_dir, hdl, hte, hnav] using h
      | some entries =>
        simpa only [process_dir, hdl, hte, hnav] using
          foldl_pres (fun a => TreeInv a.1) _
            (fun s x hs => processEntry_inv ino dir.path s x hs) entries acc h
    | regularFile => simpa only [process_dir, hdl, hte] using h
    | symlink target => simpa only [process_dir, hdl, hte] using h

theorem buildLoop_inv (R : REntry) :
    ∀ (fuel : Nat) (st : BuildSt) (dirs : List Nat), TreeInv st →
      TreeInv (buildLoop R fuel st dirs) := by
  intro fuel
  induction fuel with
  | zero => intro st dirs h; exact h
  | succ n ih =>
    intro st dirs h
    cases dirs with
    | nil => exact h
    | cons d ds =>
      simp only [buildLoop]
      exact ih _ _ (foldl_pres (fun a => TreeInv a.1) _
        (fun s x hs => process_dir_inv R s x hs) (d :: ds) (st, []) h)

/-- C2: structural invariants of every tree produced by `build`:
inode 1 exists, is a directory, with parent 0 and empty path; every
`FileInfo` is keyed by its own `attr.ino`; and every children-map
edge of every directory resolves to an existing `FileInfo` whose
parent is that directory. -/
theorem c2_build_invariants (R : REntry) (t : FileTree)
    (hbuild : build R = some t) :
    (∃ fi, t.file 1 = some fi ∧ fi.parent = 0 ∧ fi.path = [] ∧
      ∃ cs, fi.type_extra = .directory cs) ∧
    (∀ i fi, t.file i = some fi → fi.attr.ino = i) ∧
    (∀ d fi cs, t.file d = some fi → fi.type_extra = .directory cs →
      ∀ p ∈ cs, ∃ cfi, t.file p.2 = some cfi ∧ cfi.parent = d) := by
  unfold build at hbuild
  cases hm : meta2attr R 1 with
  | none => rw [hm] at hbuild; cases hbuild
  | some attr =>
    rw [hm] at hbuild
    simp only [Option.some_inj] at hbuild
    have hino : attr.ino = 1 := meta2attr_ino _ _ _ hm
    have hinit : TreeInv ⟨⟨aupsert 1 ⟨0, [], attr, .directory []⟩ []⟩, 2⟩ := by
      refine treeInv_mk _ _ (by omega) ?_ ?_ ?_ ?_
      · intro i fi hl
        simp only [aupsert, alookup] at hl
        by_cases hi : i = 1
        · omega
        · simp [hi] at hl
      · exact ⟨⟨0, [], attr, .directory []⟩, by simp [aupsert, alookup], rfl,
          rfl, [], rfl⟩
      · intro i fi hl
        simp only [aupsert, alookup] at hl
        by_cases hi : i = 1
        · subst hi
          simp only [if_pos rfl] at hl
          cases hl
          exact hino
        · simp [hi] at hl
      · intro d fi cs hl hte p hp
        simp only [aupsert, alookup] at hl
        by_cases hd : d = 1
        · subst hd
          simp only [if_pos rfl] at hl
          cases hl
          cases hte
          simp at hp
        · simp [hd] at hl
    have hfin := buildLoop_inv R (rsize R) _ [1] hinit
    rw [← hbuild]
    exact ⟨hfin.root_ok, hfin.ino_ok, hfin.edges_ok⟩

/-- Witness for C2 at the empty remote root. -/
theorem c2_build_invariants_witness :
    ∃ fi, tree0.file 1 = some fi ∧ fi.parent = 0 ∧ fi.path = [] ∧
      ∃ cs, fi.type_extra = .directory cs :=
  (c2_build_invariants emptyRoot tree0 (by decide)).1

/-! ## The dispatcher (`CacheFs`)

The dispatcher's fallible interactions with the surrounding
filesystem (`Path::exists`, `create_dir_all`, `copy`, `rename`,
`remove_file`, `OpenOptions::open`) are driven by a `World` record of
their outcomes, and every side-effecting call is recorded, in program
order, in the returned `Action` list.  An open cache descriptor is
modelled by the contents of the cached file. -/

/-- Outcome kind of a failed `std::io` call, as classified by `errhandle`. -/
inductive EKind where
  | permissionDenied
  | notFound
  | otherErr
deriving DecidableEq, Repr

/-- The error mapping `errhandle`: permission-denied → `EPERM`,
not-found → `ENOENT`, anything else → `EIO`. -/
def errhandle : EKind → Nat
  | .permissionDenied => eperm
  | .notFound => enoent
  | .otherErr => eio

/-- A `FileHandle`: an open cache descriptor (modelled by the cached
file's contents) and its open-count. -/
structure FileHandle where
  file : List Nat
  count : Nat
deriving DecidableEq, Repr

/-- `FileHandle::new`: wrap a descriptor with count 1. -/
def FileHandle.new (f : List Nat) : FileHandle := ⟨f, 1⟩

/-- The dispatcher state `CacheFs`. -/
structure CacheFs where
  remote_dir : Path
  cache_dir : Path
  cache_tmp_file : Path
  tree : FileTree
  opened_files : List (Nat × FileHandle)
  read_buffer : List Nat
deriving DecidableEq, Repr

/-- `CacheFs::new`: derive the cache root and temp-file paths from the
cache directory; the handle table and scratch buffer start empty. -/
def CacheFs.new (remote_dir cache_dir : Path) (tree : FileTree) : CacheFs :=
  ⟨remote_dir, cache_dir ++ [[114, 111, 111, 116]],
    cache_dir ++ [[116, 109, 112, 46, 102, 105, 108, 101]], tree, [], []⟩

/-- Outcome of `OpenOptions::open`: a descriptor on the cached file's
contents, or an I/O error kind. -/
inductive OpenOutcome where
  | fail (e : EKind)
  | ok (f : List Nat)
deriving DecidableEq, Repr

/-- Outcomes of the external filesystem calls an `open` may make. -/
structure World where
  cacheExists : Bool
  mkdirOk : Bool
  copyOk : Bool
  renameOk : Bool
  removeOk : Bool
  openRes : OpenOutcome
deriving DecidableEq, Repr

/-- A side-effecting filesystem call performed by the dispatcher. -/
inductive Action where
  | createDirAll (p : Path)
  | copyFile (src dst : Path)
  | renameFile (src dst : Path)
  | removeFile (p : Path)
  | openFile (p : Path)
  | closeFd
deriving DecidableEq, Repr

/-- Reply of `open` (`ReplyOpen`): `opened(fh, flags)` or an errno. -/
inductive OpenReply where
  | opened (fh : Nat) (flags : Nat)
  | openErr (e : Nat)
deriving DecidableEq, Repr

/-- Reply of `read` (`ReplyData`): a byte string or an errno. -/
inductive ReadReply where
  | readData (b : List Nat)
  | readErr (e : Nat)
deriving DecidableEq, Repr

/-- Reply of `release` (`ReplyEmpty`): ok or an errno. -/
inductive EmptyReply where
  | replyOk
  | replyErr (e : Nat)
deriving DecidableEq, Repr

/-- `Path::parent`: `none` for the empty path, otherwise drop the last
component. -/
def pathParent (p : Path) : Option Path :=
  match p with
  | [] => none
  | _ => some p.dropLast

/-- Final step of `open`: open the populated cache file read-only;
map failures through `errhandle`, and on success install a fresh
handle with count 1 and reply `(ino, 0)`. -/
def openAttempt (w : World) (st : CacheFs) (ino : Nat) (cache_path : Path)
    (acts : List Action) : CacheFs × OpenReply × List Action :=
  match w.openRes with
  | .fail e => (st, .openErr (errhandle e), acts ++ [.openFile cache_path])
  | .ok f =>
    ({ st with opened_files := aupsert ino (FileHandle.new f) st.opened_files },
      .opened ino 0, acts ++ [.openFile cache_path])

/-- Copy-then-rename steps of the cache-population protocol: copy the
remote file to the shared temp file (`EIO` on failure), then rename
the temp file onto the cache path; on rename failure the source
best-effort-deletes `cache_path` (`remove_file(cache_path).ok()`,
the outcome ignored) and replies `EIO`. -/
def openCopy (w : World) (st : CacheFs) (ino : Nat)
    (remote_path cache_path : Path) (acts : List Action) :
    CacheFs × OpenReply × List Action :=
  if w.copyOk = false then
    (st, .openErr eio, acts ++ [.copyFile remote_path st.cache_tmp_file])
  else if w.renameOk = false then
    (st, .openErr eio, acts ++ [.copyFile remote_path st.cache_tmp_file,
      .renameFile st.cache_tmp_file cache_path, .removeFile cache_path])
  else
    openAttempt w st ino cache_path (acts ++
      [.copyFile remote_path st.cache_tmp_file,
        .renameFile st.cache_tmp_file cache_path])

/-- Cache-population on miss: create the cache path's parent directory
chain (`EIO` on failure; skipped when the path has no parent), then
copy and rename. -/
def openPopulate (w : World) (st : CacheFs) (ino : Nat)
    (remote_path cache_path : Path) : CacheFs × OpenReply × List Action :=
  match pathParent cache_path with
  | none => openCopy w st ino remote_path cache_path []
  | some parent =>
    if w.mkdirOk = false then (st, .openErr eio, [.createDirAll parent])
    else openCopy w st ino remote_path cache_path [.createDirAll parent]

/-- `CacheFs::open`: coalesce onto an existing handle (increment its
count and reply `(ino, 0)` before anything else); otherwise resolve
the inode (`ENOENT` on miss), filter the flags (`EINVAL` for bad
access-mode bits, `EIO` for create/append/truncate requests),
populate the cache on miss, and open the cache file. -/
def openFs (w : World) (st : CacheFs) (ino : Nat) (flags : Nat) :
    CacheFs × OpenReply × List Action :=
  match alookup st.opened_files ino with
  | some h =>
    ({ st with opened_files := aupsert ino ⟨h.file, h.count + 1⟩ st.opened_files },
      .opened ino 0, [])
  | none =>
    match st.tree.file ino with
    | none => (st, .openErr enoent, [])
    | some fi =>
      if flags &&& O_ACCMODE = O_RDONLY ∨ flags &&& O_ACCMODE = O_WRONLY ∨
          flags &&& O_ACCMODE = O_RDWR then
        if flags &&& (O_EXCL ||| O_CREAT) ≠ 0 ∨
            flags &&& O_APPEND = O_APPEND ∨ flags &&& O_TRUNC = O_TRUNC then
          (st, .openErr eio, [])
        else
          let cache_path := st.cache_dir ++ fi.path
          if w.cacheExists then openAttempt w st ino cache_path []
          else openPopulate w st ino (st.remote_dir ++ fi.path) cache_path
      else (st, .openErr einval, [])

/-- The cast `offset as u64` applied to an `i64` offset. -/
def off64 (o : Int) : Nat := (o % (2 ^ 64 : Int)).toNat

/-- Copy `data` into the buffer `b` starting at position `pos`
(`read_at` writing into the slice `&mut b[pos..]`). -/
def writeAt (b : List Nat) (pos : Nat) (data : List Nat) : List Nat :=
  b.take pos ++ data ++ b.drop (pos + data.length)

/-- `Vec::resize(n, 0)`: truncate or zero-pad the buffer to length `n`. -/
def resizeBuf (b : List Nat) (n : Nat) : List Nat :=
  b.take n ++ List.replicate (n - b.length) 0

/-- The read loop of `CacheFs::read`: repeatedly `read_at` into
`b[bo..]` — always at the same file offset `off`, as the source does —
until `size` bytes are in the buffer or a read returns 0, in which
case the buffer is truncated to the bytes read so far.  A positional
read at `off` into a slice of length `size - bo` returns
`min (size - bo) (content.length - off)` bytes of `content`
(0 exactly at/after end of file).  The fuel only bounds the number of
iterations: every iteration advances `bo` by at least one byte, so the
`size + 1` fuel `readFs` passes is never exhausted. -/
def readLoop (content : List Nat) (off size : Nat) :
    Nat → List Nat → Nat → List Nat
  | 0, b, _ => b
  | fuel + 1, b, bo =>
    if bo < size then
      if min (size - bo) (content.length - off) = 0 then b.take bo
      else
        readLoop content off size fuel
          (writeAt b bo ((content.drop off).take
            (min (size - bo) (content.length - off))))
          (bo + min (size - bo) (content.length - off))
    else b

/-- `CacheFs::read`: look the handle up by `fh` (`EIO` when absent),
resize the shared scratch buffer to `size`, run the read loop, store
the buffer back and reply with it. -/
def readFs (st : CacheFs) (ino fh : Nat) (offset : Int) (size : Nat) :
    CacheFs × ReadReply :=
  match alookup st.opened_files fh with
  | none => (st, .readErr eio)
  | some h =>
    let b0 := if st.read_buffer.length ≠ size then resizeBuf st.read_buffer size
      else st.read_buffer
    let b := readLoop h.file (off64 offset) size (size + 1) b0 0
    ({ st with read_buffer := b }, .readData b)

/-- `CacheFs::release`: remove the handle-table entry by `fh` (`EIO`
when absent), decrement its count, and reinsert it unless the count
reached zero — in which case the descriptor is dropped (closed). -/
def releaseFs (st : CacheFs) (fh : Nat) :
    CacheFs × EmptyReply × List Action :=
  match alookup st.opened_files fh with
  | none => (st, .replyErr eio, [])
  | some h =>
    let files := aerase fh st.opened_files
    if h.count - 1 = 0 then
      ({ st with opened_files := files }, .replyOk, [.closeFd])
    else
      ({ st with opened_files := aupsert fh ⟨h.file, h.count - 1⟩ files },
        .replyOk, [])

/-- One entry emitted to a `ReplyDirectory` buffer: inode, next-offset,
kind, name. -/
structure DirEntryOut where
  eIno : Nat
  eOff : Int
  eKind : FKind
  eName : Name
deriving DecidableEq, Repr

/-- Reply of `readdir` (`ReplyDirectory`): the accepted entries or an
errno. -/
inductive DirReply where
  | dirOk (entries : List DirEntryOut)
  | dirErr (e : Nat)
deriving DecidableEq, Repr

/-- The name `.`. -/
def dotName : Name := [46]

/-- The name `..`. -/
def dotdotName : Name := [46, 46]

/-- `ReplyDirectory::add` with a buffer capacity of `cap` entries:
returns the buffer and `true` (entry rejected, buffer unchanged) when
the buffer is full. -/
def rbAdd (cap : Nat) (buf : List DirEntryOut) (e : DirEntryOut) :
    List DirEntryOut × Bool :=
  if buf.length < cap then (buf ++ [e], false) else (buf, true)

/-- The child-iteration loop of `readdir` over the enumerated children
suffix: each child is looked up (a miss — impossible for trees
satisfying the build invariant — replies `EIO`), then emitted with
next-offset `i + 3`; a rejected emission breaks the loop and the
accepted entries are returned. -/
def rdChild (t : FileTree) (cap : Nat) :
    List (Nat × (Name × Nat)) → List DirEntryOut → DirReply
  | [], buf => .dirOk buf
  | (i, (name, cino)) :: rest, buf =>
    match t.file cino with
    | none => .dirErr eio
    | some fi =>
      match rbAdd cap buf ⟨cino, (i : Int) + 3, fi.attr.kind, name⟩ with
      | (buf', true) => .dirOk buf'
      | (buf', false) => rdChild t cap rest buf'

/-- Child iteration start index: `if offset <= 1 { 0 } else { offset - 2 }`. -/
def startIdx (offset : Int) : Nat :=
  if offset ≤ 1 then 0 else (offset - 2).toNat

/-- The `..` stage and child stage of `readdir`: at offset ≤ 1 emit
`..` mapped to the directory's parent with next-offset 2 (reply ok at
once if rejected), then iterate the children from `startIdx`. -/
def rdDots2 (t : FileTree) (cap : Nat) (dir : FileInfo)
    (cs : List (Name × Nat)) (offset : Int) (buf : List DirEntryOut) :
    DirReply :=
  if offset ≤ 1 then
    match rbAdd cap buf ⟨dir.parent, 2, .directory, dotdotName⟩ with
    | (b, true) => .dirOk b
    | (b, false) => rdChild t cap (cs.enum.drop (startIdx offset)) b
  else rdChild t cap (cs.enum.drop (startIdx offset)) buf

/-- `CacheFs::readdir`: reply `EIO` unless the inode is a directory;
at offset 0 emit `.` mapped to the directory's own inode with
next-offset 1 (reply ok at once if rejected), then the `..` and child
stages. -/
def readdirFs (t : FileTree) (cap : Nat) (ino : Nat) (offset : Int) :
    DirReply :=
  match t.folder ino with
  | none => .dirErr eio
  | some (dir, cs) =>
    if offset = 0 then
      match rbAdd cap [] ⟨dir.attr.ino, 1, .directory, dotName⟩ with
      | (b, true) => .dirOk b
      | (b, false) => rdDots2 t cap dir cs offset b
    else rdDots2 t cap dir cs offset []

/-! ## Concrete fixtures for witnesses and counterexamples -/

/-- Attributes of the single regular file of `tree2`. -/
def fileAttr2 : FileAttr :=
  ⟨2, 0, 0, 0, 0, 0, 0, .regularFile, 0, 0, 0, 0, 0, 0, 0⟩

/-- The `FileInfo` of the single regular file of `tree2`. -/
def fileInfo2 : FileInfo := ⟨1, [[97]], fileAttr2, .regularFile⟩

/-- A tree with the root (inode 1) and one regular file `a` (inode 2). -/
def tree2 : FileTree :=
  ⟨[(1, ⟨0, [], rootAttr0, .directory [([97], 2)]⟩), (2, fileInfo2)]⟩

/-- Dispatcher state over `tree2` with no open handles. -/
def stNoHandle : CacheFs := CacheFs.new [[114]] [[99]] tree2

/-- Dispatcher state with an open handle (count 1) for inode 2. -/
def stHandle : CacheFs := { stNoHandle with opened_files := [(2, ⟨[], 1⟩)] }

/-- A handle on an empty cached file. -/
def hEmpty : FileHandle := ⟨[], 1⟩

/-- Dispatcher state with a handle for fh 7 on an empty file. -/
def stRead : CacheFs := { stNoHandle with opened_files := [(7, hEmpty)] }

/-- A world in which every external call succeeds. -/
def wOk : World := ⟨true, true, true, true, true, .ok []⟩

/-- A world with a cache miss in which the rename of the temp file fails. -/
def wRenameFail : World := ⟨false, true, true, false, true, .ok []⟩

/-! ## Claims C3, C4 — the `open` flag filter and rename-failure path -/

/-- C3 counterexample: the claim quantifies over every call, but when a
`FileHandle` for the inode is already present, `open` with
`O_WRONLY | O_CREAT` — a flag combination containing a create bit —
replies `opened (ino, 0)`, not `EIO`: the coalescing branch runs
before the flag filter. -/
theorem c3_counterexample :
    (openFs wOk stHandle 2 (O_WRONLY ||| O_CREAT)).2.1 = .opened 2 0 ∧
    (O_WRONLY ||| O_CREAT) &&& (O_EXCL ||| O_CREAT) ≠ 0 ∧
    OpenReply.opened 2 0 ≠ .openErr eio := by decide

/-- C3 (amended): for a call `open(ino, flags)` with no existing handle
for `ino` and `ino` resolving in the tree, invalid access-mode bits
reply `EINVAL`, and otherwise (the access-mode check runs first) any
of the exclusive-create/create/append/truncate bits replies `EIO`. -/
theorem c3_open_flag_filter (w : World) (st : CacheFs) (ino flags : Nat)
    (fi : FileInfo) (hno : alookup st.opened_files ino = none)
    (hfi : st.tree.file ino = some fi) :
    (¬ (flags &&& O_ACCMODE = O_RDONLY ∨ flags &&& O_ACCMODE = O_WRONLY ∨
        flags &&& O_ACCMODE = O_RDWR) →
      (openFs w st ino flags).2.1 = .openErr einval) ∧
    ((flags &&& O_ACCMODE = O_RDONLY ∨ flags &&& O_ACCMODE = O_WRONLY ∨
        flags &&& O_ACCMODE = O_RDWR) →
      (flags &&& (O_EXCL ||| O_CREAT) ≠ 0 ∨ flags &&& O_APPEND = O_APPEND ∨
        flags &&& O_TRUNC = O_TRUNC) →
      (openFs w st ino flags).2.1 = .openErr eio) := by
  constructor
  · intro hacc
    simp only [openFs, hno, hfi, if_neg hacc]
  · intro hacc hcr
    simp only [openFs, hno, hfi, if_pos hacc, if_pos hcr]

/-- Witness for the amended C3 at both branches. -/
theorem c3_open_flag_filter_witness :
    (openFs wOk stNoHandle 2 3).2.1 = .openErr einval ∧
    (openFs wOk stNoHandle 2 65).2.1 = .openErr eio :=
  ⟨(c3_open_flag_filter wOk stNoHandle 2 3 fileInfo2 (by decide)
      (by decide)).1 (by decide),
    (c3_open_flag_filter wOk stNoHandle 2 65 fileInfo2 (by decide)
      (by decide)).2 (by decide) (by decide)⟩

/-- C4 counterexample: on rename failure the dispatcher best-effort
unlinks the destination `cache_path` (source: `remove_file(cache_path)`),
not the temp file as claimed — the action trace contains a removal of
the cache path and no removal of `cache_tmp_file`. -/
theorem c4_counterexample :
    (openFs wRenameFail stNoHandle 2 0).2.2 =
      [.createDirAll stNoHandle.cache_dir,
        .copyFile (stNoHandle.remote_dir ++ [[97]]) stNoHandle.cache_tmp_file,
        .renameFile stNoHandle.cache_tmp_file (stNoHandle.cache_dir ++ [[97]]),
        .removeFile (stNoHandle.cache_dir ++ [[97]])] ∧
    Action.removeFile stNoHandle.cache_tmp_file ∉
      (openFs wRenameFail stNoHandle 2 0).2.2 ∧
    (openFs wRenameFail stNoHandle 2 0).2.1 = .openErr eio := by decide

/-- C4 (amended): in `open`'s cache-population step, when the rename of
the temp file onto `cache_path` fails, the dispatcher attempts a
best-effort unlink of the destination `cache_path` (the outcome of
the unlink — `w.removeOk` — is ignored, and the reply does not depend
on it) and replies `EIO`, leaving the dispatcher state unchanged. -/
theorem c4_rename_failure_cleanup (w : World) (st : CacheFs)
    (ino flags : Nat) (fi : FileInfo)
    (hno : alookup st.opened_files ino = none)
    (hfi : st.tree.file ino = some fi)
    (hacc : flags &&& O_ACCMODE = O_RDONLY ∨ flags &&& O_ACCMODE = O_WRONLY ∨
      flags &&& O_ACCMODE = O_RDWR)
    (hcr : ¬ (flags &&& (O_EXCL ||| O_CREAT) ≠ 0 ∨
      flags &&& O_APPEND = O_APPEND ∨ flags &&& O_TRUNC = O_TRUNC))
    (hmiss : w.cacheExists = false) (hmkdir : w.mkdirOk = true)
    (hcopy : w.copyOk = true) (hrename : w.renameOk = false) :
    (openFs w st ino flags).2.1 = .openErr eio ∧
    (openFs w st ino flags).1 = st ∧
    Action.removeFile (st.cache_dir ++ fi.path) ∈ (openFs w st ino flags).2.2 ∧
    Action.renameFile st.cache_tmp_file (st.cache_dir ++ fi.path) ∈
      (openFs w st ino flags).2.2 := by
  simp only [openFs, hno, hfi, if_pos hacc, if_neg hcr, hmiss,
    Bool.false_eq_true, if_false, openPopulate]
  cases hp : pathParent (st.cache_dir ++ fi.path) with
  | none =>
    simp [openCopy, hcopy, hrename]
  | some parent =>
    simp [hmkdir, openCopy, hcopy, hrename]

/-- Witness for the amended C4 at a concrete rename failure. -/
theorem c4_rename_failure_cleanup_witness :
    (openFs wRenameFail stNoHandle 2 0).2.1 = .openErr eio ∧
    (openFs wRenameFail stNoHandle 2 0).1 = stNoHandle ∧
    Action.removeFile (stNoHandle.cache_dir ++ fileInfo2.path) ∈
      (openFs wRenameFail stNoHandle 2 0).2.2 ∧
    Action.renameFile stNoHandle.cache_tmp_file
        (stNoHandle.cache_dir ++ fileInfo2.path) ∈
      (openFs wRenameFail stNoHandle 2 0).2.2 :=
  c4_rename_failure_cleanup wRenameFail stNoHandle 2 0 fileInfo2 (by decide)
    (by decide) (by decide) (by decide) (by decide) (by decide) (by decide)
    (by decide)

/-! ## Claim C5 — short reads -/

theorem writeAt_length (b : List Nat) (pos : Nat) (data : List Nat)
    (h : pos + data.length ≤ b.length) :
    (writeAt b pos data).length = b.length := by
  simp only [writeAt, List.length_append, List.length_take, List.length_drop]
  omega

theorem resizeBuf_length (b : List Nat) (n : Nat) :
    (resizeBuf b n).length = n := by
  simp only [resizeBuf, List.length_append, List.length_take,
    List.length_replicate]
  omega

theorem readLoop_spec (content : List Nat) (off size : Nat) :
    ∀ (fuel : Nat) (b : List Nat) (bo : Nat), b.length = size →
      (readLoop content off size fuel b bo).length = size ∨
        content.length ≤ off := by
  intro fuel
  induction fuel with
  | zero =>
    intro b bo hb
    exact Or.inl hb
  | succ n ih =>
    intro b bo hb
    rw [readLoop]
    by_cases hlt : bo < size
    · rw [if_pos hlt]
      by_cases hz : min (size - bo) (content.length - off) = 0
      · rw [if_pos hz]
        right
        simp only [Nat.min_def] at hz
        split at hz <;> omega
      · rw [if_neg hz]
        have hret : min (size - bo) (content.length - off) ≤ size - bo :=
          Nat.min_le_left _ _
        have hretlen : min (size - bo) (content.length - off) ≤
            content.length - off := Nat.min_le_right _ _
        have hdata : ((content.drop off).take
            (min (size - bo) (content.length - off))).length =
            min (size - bo) (content.length - off) := by
          simp only [List.length_take, List.length_drop]
          omega
        have hb' : (writeAt b bo ((content.drop off).take
            (min (size - bo) (content.length - off)))).length = size := by
          rw [writeAt_length]
          · exact hb
          · rw [hdata]
            omega
        exact ih _ _ hb'
    · rw [if_neg hlt]
      exact Or.inl hb

/-- C5 counterexample: a read of 1 byte at offset 1 on an empty cached
file completes with the empty byte string, whose length is neither
the requested size nor makes the file size equal `offset + |B|`
(the offset lies strictly beyond end of file). -/
theorem c5_counterexample :
    alookup stRead.opened_files 7 = some hEmpty ∧
    (readFs stRead 1 7 1 1).2 = .readData [] ∧
    ¬ (([] : List Nat).length = 1 ∨
      hEmpty.file.length = off64 1 + ([] : List Nat).length) := by decide

/-- C5 (amended): for every read that completes with byte string `B`,
either `|B| = size` or `offset + |B|` is at or beyond the file's total
size (every short read implies the read position is at or past end of
file). -/
theorem c5_read_short_implies_eof (st : CacheFs) (ino fh : Nat)
    (offset : Int) (size : Nat) (h : FileHandle) (B : List Nat)
    (hh : alookup st.opened_files fh = some h)
    (hres : (readFs st ino fh offset size).2 = .readData B) :
    B.length = size ∨ h.file.length ≤ off64 offset + B.length := by
  simp only [readFs, hh] at hres
  cases hres
  have hb0 : (if st.read_buffer.length ≠ size then
      resizeBuf st.read_buffer size else st.read_buffer).length = size := by
    by_cases hlen : st.read_buffer.length ≠ size
    · rw [if_pos hlen, resizeBuf_length]
    · rw [if_neg hlen]
      omega
  rcases readLoop_spec h.file (off64 offset) size (size + 1) _ 0 hb0 with
    hl | hl
  · exact Or.inl hl
  · exact Or.inr (by omega)

/-- Witness for the amended C5 at a size-0 read. -/
theorem c5_read_short_implies_eof_witness :
    ([] : List Nat).length = 0 ∨
      hEmpty.file.length ≤ off64 0 + ([] : List Nat).length :=
  c5_read_short_implies_eof stRead 1 7 0 0 hEmpty [] (by decide) (by decide)

/-! ## Claim C6 — balanced reference counting -/

/-- Perform `k` consecutive `open` calls for an inode, concatenating
the action traces. -/
def openN (w : World) (ino flags : Nat) : Nat → CacheFs → CacheFs × List Action
  | 0, st => (st, [])
  | k + 1, st =>
    let r := openFs w st ino flags
    let rest := openN w ino flags k r.1
    (rest.1, r.2.2 ++ rest.2)

/-- Perform `k` consecutive `release` calls for a file handle,
concatenating the action traces. -/
def releaseN (fh : Nat) : Nat → CacheFs → CacheFs × List Action
  | 0, st => (st, [])
  | k + 1, st =>
    let r := releaseFs st fh
    let rest := releaseN fh k r.1
    (rest.1, r.2.2 ++ rest.2)

/-- Recognize a descriptor-creating action. -/
def isOpenAct : Action → Bool
  | .openFile _ => true
  | _ => false

/-- Recognize a descriptor-closing action. -/
def isCloseAct : Action → Bool
  | .closeFd => true
  | _ => false

/-- A first `open` for an unopened inode with admissible flags, a cache
hit, and a successful descriptor open installs a count-1 handle and
records exactly the descriptor-open action. -/
theorem openFs_first (w : World) (st : CacheFs) (ino flags : Nat)
    (fi : FileInfo) (f : List Nat)
    (hno : alookup st.opened_files ino = none)
    (hfi : st.tree.file ino = some fi)
    (hacc : flags &&& O_ACCMODE = O_RDONLY ∨ flags &&& O_ACCMODE = O_WRONLY ∨
      flags &&& O_ACCMODE = O_RDWR)
    (hcr : ¬ (flags &&& (O_EXCL ||| O_CREAT) ≠ 0 ∨
      flags &&& O_APPEND = O_APPEND ∨ flags &&& O_TRUNC = O_TRUNC))
    (hcache : w.cacheExists = true) (hopen : w.openRes = .ok f) :
    openFs w st ino flags =
      ({ st with opened_files := aupsert ino ⟨f, 1⟩ st.opened_files },
        .opened ino 0, [.openFile (st.cache_dir ++ fi.path)]) := by
  simp only [openFs, hno, hfi, if_pos hacc, if_neg hcr, hcache, if_true,
    openAttempt, hopen, FileHandle.new, List.nil_append]

/-- Coalescing opens: starting from a table holding `⟨f, c⟩` for the
inode, `k` further opens leave a count of `c + k`, keep the key set
well-formed, and perform no filesystem actions. -/
theorem openN_coalesce (w : World) (ino flags : Nat) :
    ∀ (k : Nat) (st : CacheFs) (f : List Nat) (c : Nat),
      alookup st.opened_files ino = some ⟨f, c⟩ →
      keysNodup st.opened_files →
      alookup (openN w ino flags k st).1.opened_files ino = some ⟨f, c + k⟩ ∧
      keysNodup (openN w ino flags k st).1.opened_files ∧
      (openN w ino flags k st).2 = [] := by
  intro k
  induction k with
  | zero => intro st f c hh hnd; exact ⟨hh, hnd, rfl⟩
  | succ n ih =>
    intro st f c hh hnd
    have hstep : openFs w st ino flags =
        ({ st with
            opened_files := aupsert ino ⟨f, c + 1⟩ st.opened_files },
          .opened ino 0, []) := by
      simp only [openFs, hh]
    simp only [openN, hstep, List.nil_append]
    have hh' : alookup (aupsert ino ⟨f, c + 1⟩ st.opened_files) ino =
        some ⟨f, c + 1⟩ := alookup_aupsert_self _ _ _
    have hnd' : keysNodup (aupsert ino ⟨f, c + 1⟩ st.opened_files) :=
      keysNodup_aupsert _ _ _ hnd
    obtain ⟨h1, h2, h3⟩ := ih
      ({ st with opened_files := aupsert ino ⟨f, c + 1⟩ st.opened_files })
      f (c + 1) hh' hnd'
    refine ⟨?_, h2, h3⟩
    rw [show c + 1 + n = c + (n + 1) from by omega] at h1
    exact h1

/-- Draining releases: starting from a table holding `⟨f, k⟩` for the
handle (`k ≥ 1`, keys well-formed), `k` releases remove the entry and
perform exactly one descriptor-close action. -/
theorem releaseN_drain (fh : Nat) :
    ∀ (k : Nat) (st : CacheFs) (f : List Nat), 1 ≤ k →
      keysNodup st.opened_files →
      alookup st.opened_files fh = some ⟨f, k⟩ →
      alookup (releaseN fh k st).1.opened_files fh = none ∧
      (releaseN fh k st).2 = [.closeFd] := by
  intro k
  induction k with
  | zero => intro st f hk; omega
  | succ n ih =>
    intro st f _ hnd hh
    by_cases hn : n = 0
    · subst hn
      have hstep : releaseFs st fh =
          ({ st with opened_files := aerase fh st.opened_files },
            .replyOk, [.closeFd]) := by
        simp [releaseFs, hh]
      simp only [releaseN, hstep]
      exact ⟨alookup_aerase_self _ _ hnd, rfl⟩
    · have hstep : releaseFs st fh =
          ({ st with
              opened_files := aupsert fh ⟨f, n⟩ (aerase fh st.opened_files) },
            .replyOk, []) := by
        simp only [releaseFs, hh]
        rw [if_neg (show ¬ ((⟨f, n + 1⟩ : FileHandle).count - 1 = 0) from by
          simp; omega)]
        simp only [Nat.add_sub_cancel]
      simp only [releaseN, hstep, List.nil_append]
      exact ih _ f (by omega) (keysNodup_aupsert _ _ _ (keysNodup_aerase _ _ hnd))
        (alookup_aupsert_self _ _ _)

/-- C6: reference counting is balanced.  For an inode with no existing
handle, admissible flags, a cache hit and a successful descriptor
open, `k ≥ 1` opens followed by `k` releases (with `fh = ino`, as the
dispatcher replies) leave no handle-table entry for the inode, and
the combined action trace contains exactly one descriptor creation
and exactly one descriptor close: the first open creates the
descriptor with count 1, later opens only increment the count, and
release decrements, dropping only at zero. -/
theorem c6_refcount_balanced (w : World) (st : CacheFs)
    (ino flags k : Nat) (fi : FileInfo) (f : List Nat) (hk : 1 ≤ k)
    (hnd : keysNodup st.opened_files)
    (hno : alookup st.opened_files ino = none)
    (hfi : st.tree.file ino = some fi)
    (hacc : flags &&& O_ACCMODE = O_RDONLY ∨ flags &&& O_ACCMODE = O_WRONLY ∨
      flags &&& O_ACCMODE = O_RDWR)
    (hcr : ¬ (flags &&& (O_EXCL ||| O_CREAT) ≠ 0 ∨
      flags &&& O_APPEND = O_APPEND ∨ flags &&& O_TRUNC = O_TRUNC))
    (hcache : w.cacheExists = true) (hopen : w.openRes = .ok f) :
    alookup (releaseN ino k (openN w ino flags k st).1).1.opened_files ino
      = none ∧
    (((openN w ino flags k st).2 ++
      (releaseN ino k (openN w ino flags k st).1).2).countP isOpenAct = 1 ∧
    ((openN w ino flags k st).2 ++
      (releaseN ino k (openN w ino flags k st).1).2).countP isCloseAct = 1) := by
  obtain ⟨k', rfl⟩ : ∃ k', k = k' + 1 := ⟨k - 1, by omega⟩
  have hstep := openFs_first w st ino flags fi f hno hfi hacc hcr hcache hopen
  have hopenN : openN w ino flags (k' + 1) st =
      ((openN w ino flags k'
          ({ st with
              opened_files := aupsert ino ⟨f, 1⟩ st.opened_files })).1,
        [.openFile (st.cache_dir ++ fi.path)] ++
        (openN w ino flags k'
          ({ st with
              opened_files := aupsert ino ⟨f, 1⟩ st.opened_files })).2) := by
    simp only [openN, hstep]
  obtain ⟨hlook, hnd2, hacts⟩ := openN_coalesce w ino flags k'
    ({ st with opened_files := aupsert ino ⟨f, 1⟩ st.opened_files }) f 1
    (alookup_aupsert_self _ _ _) (keysNodup_aupsert _ _ _ hnd)
  rw [show (1 : Nat) + k' = k' + 1 from by omega] at hlook
  obtain ⟨hrel, hrelacts⟩ := releaseN_drain ino (k' + 1) _ f (by omega)
    hnd2 hlook
  rw [hopenN]
  refine ⟨hrel, ?_, ?_⟩
  · rw [hacts, hrelacts]
    rfl
  · rw [hacts, hrelacts]
    rfl

/-- Witness for C6 at two opens and two releases of inode 2. -/
theorem c6_refcount_balanced_witness :
    alookup (releaseN 2 2 (openN wOk 2 0 2 stNoHandle).1).1.opened_files 2
      = none ∧
    (((openN wOk 2 0 2 stNoHandle).2 ++
      (releaseN 2 2 (openN wOk 2 0 2 stNoHandle).1).2).countP isOpenAct = 1 ∧
    ((openN wOk 2 0 2 stNoHandle).2 ++
      (releaseN 2 2 (openN wOk 2 0 2 stNoHandle).1).2).countP isCloseAct = 1) :=
  c6_refcount_balanced wOk stNoHandle 2 0 2 fileInfo2 [] (by decide)
    (by decide) (by decide) (by decide) (by decide) (by decide) (by decide)
    (by decide)

/-! ## Claims C8, C9, C10 — size-0 reads, handle coalescing, unknown fh -/

/-- C8 counterexample: a size-0 read with an `fh` absent from the
HandleTable replies `EIO`, not an empty byte string — the handle
lookup runs before the size check, so the result does depend on
whether a handle exists. -/
theorem c8_counterexample :
    alookup stNoHandle.opened_files 9 = none ∧
    (readFs stNoHandle 2 9 0 0).2 = .readErr eio := by
  refine ⟨by decide, ?_⟩
  simp only [readFs]
  rw [show alookup stNoHandle.opened_files 9 = none from by decide]

/-- C8 (amended): a size-0 read whose `fh` is present in the
HandleTable replies the empty byte string (no bytes are read from the
file) and leaves the handle table unchanged; an absent `fh` replies
`EIO` (the handle lookup runs first). -/
theorem c8_read_size_zero (st : CacheFs) (ino fh : Nat) (offset : Int)
    (h : FileHandle) (hh : alookup st.opened_files fh = some h) :
    (readFs st ino fh offset 0).2 = .readData [] ∧
    (readFs st ino fh offset 0).1.opened_files = st.opened_files := by
  have hb0 : (if st.read_buffer.length ≠ 0 then resizeBuf st.read_buffer 0
      else st.read_buffer) = [] := by
    by_cases hlen : st.read_buffer.length ≠ 0
    · rw [if_pos hlen]
      simp [resizeBuf]
    · rw [if_neg hlen]
      push_neg at hlen
      exact List.length_eq_zero.mp hlen
  have hloop : readLoop h.file (off64 offset) 0 1 [] 0 = [] := by
    rw [readLoop]
    simp
  constructor
  · simp only [readFs, hh, hb0, hloop]
  · simp only [readFs, hh, hb0, hloop]

/-- Witness for the amended C8. -/
theorem c8_read_size_zero_witness :
    (readFs stRead 1 7 5 0).2 = .readData [] ∧
    (readFs stRead 1 7 5 0).1.opened_files = stRead.opened_files :=
  c8_read_size_zero stRead 1 7 5 hEmpty (by decide)

/-- C9: when a `FileHandle` for the inode is already present, `open`
replies `(ino, 0)` for every flags value and every world, only
increments that handle's count, and performs no filesystem action:
the flag filter, tree resolution, cache population and descriptor
open are all skipped and the cache directory is untouched. -/
theorem c9_open_coalesces (w : World) (st : CacheFs) (ino flags : Nat)
    (h : FileHandle) (hh : alookup st.opened_files ino = some h) :
    openFs w st ino flags =
      ({ st with
          opened_files := aupsert ino ⟨h.file, h.count + 1⟩ st.opened_files },
        .opened ino 0, []) := by
  simp only [openFs, hh]

/-- Witness for C9: an open with `O_WRONLY | O_CREAT` on an already-open
inode succeeds with no actions. -/
theorem c9_open_coalesces_witness :
    openFs wOk stHandle 2 65 =
      ({ stHandle with
          opened_files := aupsert 2 ⟨[], 2⟩ stHandle.opened_files },
        .opened 2 0, []) :=
  c9_open_coalesces wOk stHandle 2 65 ⟨[], 1⟩ (by decide)

/-- C10: `release` with an `fh` that has no entry in the HandleTable
replies `EIO` and returns the state exactly unchanged, performing no
action. -/
theorem c10_release_unknown_fh (st : CacheFs) (fh : Nat)
    (hh : alookup st.opened_files fh = none) :
    releaseFs st fh = (st, .replyErr eio, []) := by
  simp only [releaseFs, hh]

/-- Witness for C10. -/
theorem c10_release_unknown_fh_witness :
    releaseFs stNoHandle 9 = (stNoHandle, .replyErr eio, []) :=
  c10_release_unknown_fh stNoHandle 9 (by decide)

/-! ## Claim C7 — readdir enumeration -/

/-- The kind of an inode as reported by `readdir` (the looked-up
`FileInfo`'s `attr.kind`; the default is irrelevant, being used only
under a resolvability hypothesis). -/
def kindAt (t : FileTree) (i : Nat) : FKind :=
  match t.file i with
  | some fi => fi.attr.kind
  | none => .regularFile

/-- The directory entry emitted for the `i`-th child `(name, ino)`:
the child's inode, next-offset `i + 3`, its kind, and its name. -/
def childEntry (t : FileTree) (p : Nat × (Name × Nat)) : DirEntryOut :=
  ⟨p.2.2, (p.1 : Int) + 3, kindAt t p.2.2, p.2.1⟩

theorem snd_mem_of_mem_enumFrom {α : Type} :
    ∀ (n : Nat) (l : List α) (p : Nat × α), p ∈ l.enumFrom n → p.2 ∈ l := by
  intro n l
  induction l generalizing n with
  | nil => intro p hp; simp [List.enumFrom] at hp
  | cons x xs ih =>
    intro p hp
    simp only [List.enumFrom, List.mem_cons] at hp
    rcases hp with hp | hp
    · subst hp; simp
    · exact List.mem_cons_of_mem _ (ih (n + 1) p hp)

theorem childEntry_eq (t : FileTree) (i : Nat) (name : Name) (cino : Nat)
    (fi : FileInfo) (hf : t.file cino = some fi) :
    childEntry t (i, (name, cino)) =
      ⟨cino, (i : Int) + 3, fi.attr.kind, name⟩ := by
  simp [childEntry, kindAt, hf]

theorem rdChild_spec (t : FileTree) (cap : Nat) :
    ∀ (l : List (Nat × (Name × Nat))) (buf : List DirEntryOut),
      (∀ p ∈ l, (t.file p.2.2).isSome) →
      rdChild t cap l buf =
        .dirOk (buf ++ (l.map (childEntry t)).take (cap - buf.length)) := by
  intro l
  induction l with
  | nil => intro buf _; simp [rdChild]
  | cons x rest ih =>
    intro buf hres
    obtain ⟨i, name, cino⟩ := x
    have hx := hres (i, (name, cino)) (List.mem_cons_self _ _)
    rcases hf : t.file cino with _ | fi
    · rw [hf] at hx; simp at hx
    · simp only [rdChild, hf]
      by_cases hlt : buf.length < cap
      · simp only [rbAdd, if_pos hlt]
        rw [ih _ (fun p hp => hres p (List.mem_cons_of_mem _ hp))]
        congr 1
        rw [List.map_cons, childEntry_eq t i name cino fi hf]
        have hm : cap - buf.length = (cap - (buf.length + 1)) + 1 := by omega
        rw [hm, List.take_succ_cons]
        simp [List.length_append]
      · simp only [rbAdd, if_neg hlt]
        have h0 : cap - buf.length = 0 := by omega
        rw [h0]
        simp

theorem rdDots2_spec (t : FileTree) (cap : Nat) (dir : FileInfo)
    (cs : List (Name × Nat)) (offset : Int) (buf : List DirEntryOut)
    (hres : ∀ p ∈ cs, (t.file p.2).isSome) :
    rdDots2 t cap dir cs offset buf =
      .dirOk (buf ++
        ((if offset ≤ 1 then
            [(⟨dir.parent, 2, .directory, dotdotName⟩ : DirEntryOut)]
          else []) ++
          ((cs.enum.drop (startIdx offset)).map (childEntry t))).take
          (cap - buf.length)) := by
  have hres' : ∀ p ∈ cs.enum.drop (startIdx offset), (t.file p.2.2).isSome := by
    intro p hp
    exact hres p.2 (snd_mem_of_mem_enumFrom 0 cs p (List.mem_of_mem_drop hp))
  unfold rdDots2
  by_cases ho : offset ≤ 1
  · rw [if_pos ho]
    by_cases hlt : buf.length < cap
    · simp only [rbAdd, if_pos hlt]
      rw [rdChild_spec t cap _ _ hres']
      congr 1
      rw [if_pos ho, List.singleton_append]
      have hm : cap - buf.length = (cap - (buf.length + 1)) + 1 := by omega
      rw [hm, List.take_succ_cons]
      simp [List.length_append]
    · simp only [rbAdd, if_neg hlt]
      have h0 : cap - buf.length = 0 := by omega
      rw [h0]
      simp
  · rw [if_neg ho]
    rw [rdChild_spec t cap _ _ hres']
    rw [if_neg ho]
    simp

/-- C7: `readdir(ino, offset)` replies `EIO` when `ino` is not a
directory (or absent); otherwise, against a reply buffer accepting
`cap` entries, it replies ok with the first `cap` entries of the
stream consisting of `.` (the directory's own inode, next-offset 1)
when `offset = 0`, then `..` (the directory's parent, next-offset 2)
when `offset ≤ 1`, then the `i`-th child of the children map's
iteration order at next-offset `i + 3`, starting from child index
`max (offset - 2) 0` — provided every child inode resolves in the
tree (as the build invariant guarantees); a rejected emission
terminates the enumeration with the entries accepted so far. -/
theorem c7_readdir (t : FileTree) (cap ino : Nat) (offset : Int) :
    (t.folder ino = none → readdirFs t cap ino offset = .dirErr eio) ∧
    (∀ dir cs, t.folder ino = some (dir, cs) →
      (∀ p ∈ cs, (t.file p.2).isSome) →
      readdirFs t cap ino offset = .dirOk (List.take cap (
        (if offset = 0 then
          [(⟨dir.attr.ino, 1, .directory, dotName⟩ : DirEntryOut)]
        else []) ++
        (if offset ≤ 1 then
          [(⟨dir.parent, 2, .directory, dotdotName⟩ : DirEntryOut)]
        else []) ++
        ((cs.enum.drop (startIdx offset)).map (childEntry t))))) := by
  constructor
  · intro hf
    simp only [readdirFs, hf]
  · intro dir cs hf hres
    simp only [readdirFs, hf]
    by_cases ho : offset = 0
    · rw [if_pos ho]
      by_cases hc : 0 < cap
      · have hadd : rbAdd cap [] ⟨dir.attr.ino, 1, .directory, dotName⟩ =
            ([⟨dir.attr.ino, 1, .directory, dotName⟩], false) := by
          simp [rbAdd, hc]
        simp only [hadd]
        rw [rdDots2_spec t cap dir cs offset _ hres]
        congr 1
        rw [if_pos ho, if_pos (show offset ≤ 1 by omega), List.append_assoc]
        have hm : cap = (cap - 1) + 1 := by omega
        conv_rhs => rw [hm, List.singleton_append, List.take_succ_cons]
        simp
      · have hcap : cap = 0 := by omega
        subst hcap
        have hadd : rbAdd 0 [] ⟨dir.attr.ino, 1, .directory, dotName⟩ =
            ([], true) := by
          simp [rbAdd]
        simp only [hadd]
        simp
    · rw [if_neg ho]
      rw [rdDots2_spec t cap dir cs offset [] hres]
      rw [if_neg ho]
      simp

/-- Witness for C7: enumerating the root of `tree0` from offset 0 with
capacity 5 yields `.` then `..`. -/
theorem c7_readdir_witness :
    readdirFs tree0 5 1 0 =
      .dirOk [⟨1, 1, .directory, dotName⟩, ⟨0, 2, .directory, dotdotName⟩] := by
  have h := (c7_readdir tree0 5 1 0).2 ⟨0, [], rootAttr0, .directory []⟩ []
    (by decide) (by decide)
  rw [h]
  decide

end Cachefs
